import Mathlib

/-!
# xcore: engine tick scheduler, launch parameters, write-pending set, SafeString

A shallow embedding of `src/Engine/Engine.cpp`, `src/Engine/Component/Net/windows/Net.h`
and `src/Utils/SafeString.h`.

Conventions of the embedding.

* A C string (`const char*`) or `std::string` is a `List Char`; the terminating NUL is
  implicit, so the lists that stand for C strings hold no NUL character.
* `std::string::npos` / `nullptr` results are `none`.
* `unsigned_int64` values are naturals below `2 ^ 64` with explicit wrap-around;
  `int` values are integers, converted with explicit wrap-around where the source converts.
* The wall clock `SafeTime::GetMicroSecond()` is the sequence of the values it returns:
  `clock 0` is the reading before the loop, `clock i` the reading that ends iteration
  `i` (the iterations are numbered from 1).
* Calls into the subsystems (`g_net`, `g_logic`) are recorded in a trace.
-/

namespace XEngine

/-! ## Subsystems and the call trace -/

/-- The two subsystems driven by `main`: `g_net` and `g_logic`. -/
inductive Subsystem where
  | net
  | logic
deriving DecidableEq, Repr

/-- The lifecycle entry points of `iEngineComponent`. -/
inductive Phase where
  | Initialize
  | Launch
  | EarlyUpdate
  | Update
  | LaterUpdate
  | Release
deriving DecidableEq, Repr

/-- One call `g_<sub>-><phase>(engine)` made by `main`. -/
structure Call where
  sub : Subsystem
  phase : Phase
deriving DecidableEq, Repr

/-! ## Engine (Engine.cpp lines 19-56) -/

/-- The engine singleton. `Engine.cpp` reads or writes no data member of it. -/
structure Engine where
deriving DecidableEq, Repr

/-- The body of `Engine::Shutdown()` (lines 49-51) is empty. -/
def Engine.Shutdown (e : Engine) : Engine := e

/-- The body of `Engine::isShutdown()` (lines 53-55) is `return false;`. -/
def Engine.isShutdown (_e : Engine) : Bool := false

/-! ## C strings and the libc calls of Engine.cpp -/

/-- A C string or `std::string`: its characters, without the terminating NUL. -/
abbrev CStr := List Char

/-- First index `i + k` at which `pat` occurs in `s`, where `s` is the text from index
`i` on: the search of `strstr` and of `std::string::find`. -/
def findAux (pat : CStr) : CStr → Nat → Option Nat
  | [], i => if pat = [] then some i else none
  | c :: t, i => if pat.isPrefixOf (c :: t) then some i else findAux pat t (i + 1)

/-- The call `strstr(hay, needle)`: offset of the first occurrence, `none` for a null result. -/
def strstr (hay needle : CStr) : Option Nat := findAux needle hay 0

/-- The test `strncmp(a, b, n) == 0`: the first `n` characters agree, the comparison
stopping at a terminating NUL. -/
def strncmpEq (a b : CStr) (n : Nat) : Bool := decide (a.take n = b.take n)

/-! ## static_parameter_map (Engine.cpp line 14) -/

/-- The table `std::map<std::string, std::string>`: its entries, at most one per key. -/
abbrev ParamMap := List (CStr × CStr)

/-- The lookup `map.find(name)`: the mapped value, `none` for `end()`. -/
def mapFind : ParamMap → CStr → Option CStr
  | [], _ => none
  | (k, v) :: rest, name => if k = name then some v else mapFind rest name

/-- The assignment `map[name] = val`: overwrite the entry of `name` or add one. -/
def mapAssign : ParamMap → CStr → CStr → ParamMap
  | [], name, val => [(name, val)]
  | (k, v) :: rest, name, val =>
    if k = name then (k, val) :: rest else (k, v) :: mapAssign rest name val

/-- The method `Engine::GetLaunchParameter` (lines 24-31), reading the static table `m`. -/
def GetLaunchParameter (m : ParamMap) (name : CStr) : Option CStr :=
  match mapFind m name with
  | some v => some v
  | none => none

/-- The loop of `AnalysisLaunchParameters` (lines 59-75) over the tokens `args[i]`,
`i = 1 .. argc - 1`, threading the static table. -/
def analysisLoop : List CStr → ParamMap → Bool × ParamMap
  | [], m => (true, m)
  | a :: rest, m =>
    if strncmpEq a ['-', '-'] 2 then
      let start := a.drop 2
      match strstr start ['='] with
      | some equal =>
        let name := start.take equal
        let val := start.drop (equal + 1)
        analysisLoop rest (mapAssign m name val)
      | none =>
        if a.length > 2 then analysisLoop rest (mapAssign m (a.drop 2) [])
        else analysisLoop rest m
    else (false, m)

/-- The function `AnalysisLaunchParameters(argc, args, env)` (lines 58-78): the result
and the static table afterwards. The loop visits `args[1] .. args[argc - 1]`; `args`
holds at least `argc` tokens. -/
def AnalysisLaunchParameters (argc : Nat) (args : List CStr) (m : ParamMap) :
    Bool × ParamMap :=
  analysisLoop ((args.take argc).drop 1) m

/-! ### The lookup table in the words of the specification -/

/-- The name a token `--k=v` or `--k` gives: the text between `--` and the first `=`
(the whole rest for a bare flag). -/
def tokenName (tok : CStr) : CStr := (tok.drop 2).takeWhile (fun c => c != '=')

/-- The value a token gives: everything after the first `=`; the empty string for a
bare flag. -/
def tokenValue (tok : CStr) : CStr := ((tok.drop 2).dropWhile (fun c => c != '=')).drop 1

/-- The value of the last token naming `k`; `none` (null) when no token names `k`. -/
def lookupLast (toks : List CStr) (k : CStr) : Option CStr :=
  ((toks.filter (fun t => decide (tokenName t = k))).getLast?).map tokenValue

/-- The tokens that are not the bare `--`. -/
def withoutBareDashes (toks : List CStr) : List CStr :=
  toks.filter (fun t => decide (t ≠ "--".toList))

/-! ## SafeString::StringToFloat and the float arithmetic of main (line 92)

Only float values that are non-negative integers are tracked: a value is the natural
number it equals. That covers `atof` on a string of decimal digits, the conversion of
the `int` constant `1000`, the product, and the truncation to `int`. -/

/-- Number of low bits a `p`-bit significand cannot hold of `n`: the least `e` with
`n / 2 ^ e < 2 ^ p` (the first argument bounds the search; `n` itself is enough). -/
def dropBits (p : Nat) : Nat → Nat → Nat
  | 0, _ => 0
  | fuel + 1, n => if n < 2 ^ p then 0 else dropBits p fuel (n / 2) + 1

/-- Round the natural `n` to the nearest value with a `p`-bit significand, ties to even
(IEEE 754 round-to-nearest-even, on integers). -/
def roundToPrec (p n : Nat) : Nat :=
  let e := dropBits p n n
  let q := n / 2 ^ e
  let r := n % 2 ^ e
  if 2 * r > 2 ^ e ∨ (2 * r = 2 ^ e ∧ q % 2 = 1) then (q + 1) * 2 ^ e else q * 2 ^ e

/-- Value of a string of decimal digits read left to right, `none` when a character is
not a digit. -/
def parseDigits : CStr → Nat → Option Nat
  | [], acc => some acc
  | c :: t, acc =>
    if c.isDigit then parseDigits t (acc * 10 + (c.toNat - '0'.toNat)) else none

/-- The call `atof(s)` on a non-empty string of decimal digits: the integer, rounded to
`double` (53-bit significand). The libc function answers every string (0.0 when no
number starts it, else the value of the longest numeric prefix); `none` stands for such
a value, which this embedding does not determine, and not for a failure. -/
def atof (s : CStr) : Option Nat :=
  if s = [] then none else (parseDigits s 0).map (roundToPrec 53)

/-- The function `SafeString::StringToFloat` (SafeString.h lines 49-51): `atof`, the
`double` converted to `float` (24-bit significand). -/
def StringToFloat (str : CStr) : Option Nat := (atof str).map (roundToPrec 24)

/-- The product `x * 1000` of a `float` and the `int` constant, computed in `float`. -/
def floatMulInt (x : Nat) (k : Nat) : Nat := roundToPrec 24 (x * roundToPrec 24 k)

/-- Conversion of a (non-negative, integral) `float` to `int`: undefined (`none`) when
the value does not fit a 32-bit `int`. -/
def floatToInt (x : Nat) : Option Int := if x < 2 ^ 31 then some (x : Int) else none

/-- The text `fixedTimeStep`, the key read at line 90. -/
def fixedTimeStepKey : CStr := "fixedTimeStep".toList

/-- Lines 89-93 of `main`: the tick duration `fixedTimeStep` computed from the static
table. `none`: the embedding does not determine the value (the parameter's text is
outside the tracked fragment of `atof`, or the conversion to `int` is undefined);
`main` runs on with some value all the same. -/
def fixedTimeStepOf (m : ParamMap) : Option Int :=
  match GetLaunchParameter m fixedTimeStepKey with
  | none => some 33333
  | some fixedTimeStepStr =>
    match StringToFloat fixedTimeStepStr with
    | none => none
    | some f => floatToInt (floatMulInt f 1000)

/-! ## main (Engine.cpp lines 80-134) -/

/-- Conversion of an `int` to `unsigned_int64`: the value modulo `2 ^ 64`. -/
def toU64 (i : Int) : Nat := (i % (2 ^ 64 : Int)).toNat

/-- The local state of `main` that the loop changes: the calls made so far and `tick`. -/
structure MainState where
  trace : List Call
  tick : Nat
deriving DecidableEq, Repr

/-- One subsystem call `c` of iteration `i`: the call is recorded, and the subsystem may
call `engine->Shutdown()` while it runs (`callsShutdown i c`). -/
def invoke (callsShutdown : Nat → Call → Bool) (i : Nat) (c : Call)
    (st : Engine × List Call) : Engine × List Call :=
  (if callsShutdown i c then st.1.Shutdown else st.1, st.2 ++ [c])

/-- Lines 122-125: the new value of `tick` given the reading `tick2`, in
`unsigned_int64` arithmetic (`fixedTimeStep` is converted for the comparison and for
the addition). -/
def advanceTick (fixedTimeStep : Int) (tick tick2 : Nat) : Nat :=
  if (tick2 + 2 ^ 64 - tick) % 2 ^ 64 ≥ toU64 fixedTimeStep then
    (tick + toU64 fixedTimeStep) % 2 ^ 64
  else tick

/-- The loop `while (!engine->isShutdown()) { ... }` (lines 112-126), run for at most
`fuel` iterations; `i` numbers the iteration (from 1). The flag of the result tells
whether the loop was left (`true`) or is still running when the fuel ends (`false`). -/
def mainLoop (fixedTimeStep : Int) (clock : Nat → Nat) (callsShutdown : Nat → Call → Bool) :
    Nat → Nat → Engine → MainState → Bool × Engine × MainState
  | 0, _, e, s => (false, e, s)
  | fuel + 1, i, e, s =>
    if e.isShutdown then (true, e, s)
    else
      let st := invoke callsShutdown i ⟨.net, .EarlyUpdate⟩ (e, s.trace)
      let st := invoke callsShutdown i ⟨.logic, .EarlyUpdate⟩ st
      let st := invoke callsShutdown i ⟨.net, .Update⟩ st
      let st := invoke callsShutdown i ⟨.logic, .Update⟩ st
      let st := invoke callsShutdown i ⟨.net, .LaterUpdate⟩ st
      let st := invoke callsShutdown i ⟨.logic, .LaterUpdate⟩ st
      let tick2 := clock i % 2 ^ 64
      mainLoop fixedTimeStep clock callsShutdown fuel (i + 1) st.1
        ⟨st.2, advanceTick fixedTimeStep s.tick tick2⟩

/-- How a run of `main` stands when the model stops: it has returned, it has stopped
inside `XASSERT`, or it is still in the loop when the fuel ends. -/
inductive Outcome where
  | returned (code : Int)
  | aborted
  | running
deriving DecidableEq, Repr

/-- What a run of `main` did: how it stands, the subsystem calls made, and `tick`. -/
structure MainResult where
  outcome : Outcome
  trace : List Call
  tick : Nat
deriving DecidableEq, Repr

/-- The function `main` (lines 80-134).

* `xassertAborts`: whether the macro `XASSERT` (declared outside these sources) stops
  the process on a false condition.
* `_initRes`, `_launchRes`: the values returned by `Initialize` and `Launch`; lines
  102-108 discard them.
* `callsShutdown`: which subsystem calls invoke `engine->Shutdown()` (index 0: the
  calls before and after the loop).
* `clock`: the readings of `SafeTime::GetMicroSecond()`.
* `otherStep`: the value line 92 leaves in `fixedTimeStep` when `fixedTimeStepOf` does
  not determine it (the text of the parameter lies outside the tracked fragment of
  `atof`, or the conversion to `int` is undefined). Whatever that value is, `main` goes
  on to lines 95-126.
* `fuel`: the number of loop iterations the model follows. -/
def main (xassertAborts : Bool) (argc : Nat) (args : List CStr)
    (_initRes _launchRes : Subsystem → Bool) (callsShutdown : Nat → Call → Bool)
    (clock : Nat → Nat) (otherStep : Int) (fuel : Nat) : MainResult :=
  match AnalysisLaunchParameters argc args [] with
  | (false, _) =>
    ⟨if xassertAborts then Outcome.aborted else Outcome.returned 0, [], 0⟩
  | (true, m) =>
    let engine : Engine := {}
    let fixedTimeStep : Int := (fixedTimeStepOf m).getD otherStep
    let st := invoke callsShutdown 0 ⟨.net, .Initialize⟩ (engine, [])
    let st := invoke callsShutdown 0 ⟨.logic, .Initialize⟩ st
    let st := invoke callsShutdown 0 ⟨.net, .Launch⟩ st
    let st := invoke callsShutdown 0 ⟨.logic, .Launch⟩ st
    let tick := clock 0 % 2 ^ 64
    match mainLoop fixedTimeStep clock callsShutdown fuel 1 st.1 ⟨st.2, tick⟩ with
    | (false, _, s) => ⟨Outcome.running, s.trace, s.tick⟩
    | (true, e, s) =>
      let st := invoke callsShutdown 0 ⟨.logic, .Release⟩ (e, s.trace)
      let st := invoke callsShutdown 0 ⟨.net, .Release⟩ st
      ⟨Outcome.returned 0, st.2, s.tick⟩

/-- The calls of one tick, in the order of lines 113-120. -/
def tickCalls : List Call :=
  [⟨.net, .EarlyUpdate⟩, ⟨.logic, .EarlyUpdate⟩, ⟨.net, .Update⟩, ⟨.logic, .Update⟩,
   ⟨.net, .LaterUpdate⟩, ⟨.logic, .LaterUpdate⟩]

end XEngine

/-! ## Net: the write-pending set (Net.h lines 30-41) -/

namespace XEngine

/-- The operation `std::set<Tcper*>::insert`: the elements are kept in ascending order
of address, and an element that is present is not inserted again. -/
def setInsert (p : Nat) : List Nat → List Nat
  | [] => [p]
  | q :: rest =>
    if p < q then p :: q :: rest
    else if p = q then q :: rest
    else q :: setInsert p rest

/-- The operation `std::set<Tcper*>::erase(key)`: the element equal to `p` is removed,
when there is one. -/
def setErase (p : Nat) : List Nat → List Nat
  | [] => []
  | q :: rest => if p = q then rest else q :: setErase p rest

/-- The class `Net`: its one data member `_tcp_need_send`, a `std::set<Tcper*>` given by
its elements (addresses of `Tcper` objects) in iteration order. -/
structure Net where
  _tcp_need_send : List Nat
deriving DecidableEq, Repr

/-- The representation invariant of `std::set`: strictly ascending elements. -/
def Net.wellFormed (n : Net) : Prop := n._tcp_need_send.Pairwise (· < ·)

instance (n : Net) : Decidable n.wellFormed := by
  unfold Net.wellFormed; infer_instance

/-- The method `Net::TcpNeedSend` (lines 30-32). -/
def Net.TcpNeedSend (n : Net) (pipe : Nat) : Net := ⟨setInsert pipe n._tcp_need_send⟩

/-- The method `Net::TcpNoNeedSend` (lines 34-36). -/
def Net.TcpNoNeedSend (n : Net) (pipe : Nat) : Net := ⟨setErase pipe n._tcp_need_send⟩

end XEngine

/-! ## SafeString (SafeString.h) -/

namespace SafeString

open XEngine (CStr findAux)

/-! ### Replace -/

/-- The method `std::string::find(pat, pos)`: `none` is `npos`. -/
def find (s pat : CStr) (pos : Nat) : Option Nat :=
  if pos ≤ s.length then findAux pat (s.drop pos) pos else none

/-- The method `std::string::replace(pos, n, dst)` for `pos ≤ size()`; `dst` is the
text the argument holds when the call is made, also when it is the string itself. -/
def replace (s : CStr) (pos n : Nat) (dst : CStr) : CStr :=
  s.take pos ++ dst ++ s.drop (pos + n)

/-- An argument that `Replace` takes by `const` reference (`src`, `dst`): an object of
its own that holds `s`, or the very object that is passed as `target`. -/
inductive StrRef where
  | own (s : CStr)
  | target
deriving DecidableEq, Repr

/-- The text an argument holds when `target` holds `t`. -/
def StrRef.read : StrRef → CStr → CStr
  | .own s, _ => s
  | .target, t => t

/-- The loop of `Replace` (lines 15-19), entered with the result `pos` of the last
`find`; at most `fuel` iterations. `srcLen` and `desLen` are the sizes read before the
loop (lines 12-13); `src` and `dst` are read again in every iteration, through the
references. Yields the final `target` and `count`; `none` when no value is returned:
the fuel ends before the loop does, or `count++` overflows the `int` (undefined). -/
def ReplaceLoop (src dst : StrRef) (srcLen desLen : Nat) :
    Nat → CStr → Option Nat → Int → Option (CStr × Int)
  | _, target, none, count => some (target, count)
  | 0, _, some _, _ => none
  | fuel + 1, target, some pos, count =>
    let target1 := replace target pos srcLen (dst.read target)
    let pos1 := find target1 (src.read target1) (pos + desLen)
    if count < 2 ^ 31 - 1 then ReplaceLoop src dst srcLen desLen fuel target1 pos1 (count + 1)
    else none

/-- The function `SafeString::Replace` (lines 9-22): the new `target` and the value
returned. -/
def Replace (fuel : Nat) (target : CStr) (src dst : StrRef) : Option (CStr × Int) :=
  let srcLen := (src.read target).length
  let desLen := (dst.read target).length
  ReplaceLoop src dst srcLen desLen fuel target (find target (src.read target) 0) 0

/-! ### The result of Replace in the words of the specification -/

/-- The text a single left-to-right scan of the original yields: outside an occurrence
already matched (`skip = 0`), an occurrence of `src` that starts here is replaced by
`dst` and its characters are skipped; any other character is copied. -/
def scanReplace (src dst : CStr) : CStr → Nat → CStr
  | [], _ => []
  | _ :: t, skip + 1 => scanReplace src dst t skip
  | c :: t, 0 =>
    if src.isPrefixOf (c :: t) then dst ++ scanReplace src dst t (src.length - 1)
    else c :: scanReplace src dst t 0

/-- The number of occurrences the same scan finds. -/
def scanCount (src : CStr) : CStr → Nat → Nat
  | [], _ => 0
  | _ :: t, skip + 1 => scanCount src t skip
  | c :: t, 0 =>
    if src.isPrefixOf (c :: t) then scanCount src t (src.length - 1) + 1
    else scanCount src t 0

/-! ### Split -/

end SafeString


/-! # Theorems -/

namespace XEngine

/-! ## The loop of main -/

theorem invoke_fst (cs : Nat → Call → Bool) (i : Nat) (c : Call) (st : Engine × List Call) :
    (invoke cs i c st).1 = st.1 := by
  unfold invoke
  split <;> rfl

theorem invoke_snd (cs : Nat → Call → Bool) (i : Nat) (c : Call) (st : Engine × List Call) :
    (invoke cs i c st).2 = st.2 ++ [c] := rfl

/-- One more unit of fuel runs one more iteration: the loop is never left, and iteration
`i + n` appends the six calls of a tick and advances `tick` once. -/
theorem mainLoop_succ (step : Int) (clock : Nat → Nat) (cs : Nat → Call → Bool) (n : Nat) :
    ∀ (i : Nat) (e : Engine) (s : MainState),
      mainLoop step clock cs (n + 1) i e s =
        (false, e,
          ⟨(mainLoop step clock cs n i e s).2.2.trace ++ tickCalls,
           advanceTick step (mainLoop step clock cs n i e s).2.2.tick
             (clock (i + n) % 2 ^ 64)⟩) := by
  induction n with
  | zero =>
    intro i e s
    simp [mainLoop, Engine.isShutdown, invoke_snd, tickCalls]
  | succ k ih =>
    intro i e s
    rw [mainLoop]
    simp only [Engine.isShutdown, Bool.false_eq_true, if_false]
    rw [ih]
    conv_rhs => rw [mainLoop]
    simp only [Engine.isShutdown, Bool.false_eq_true, if_false]
    have : i + 1 + k = i + (k + 1) := by omega
    rw [this]

theorem mainLoop_flag (step : Int) (clock : Nat → Nat) (cs : Nat → Call → Bool) (n : Nat)
    (i : Nat) (e : Engine) (s : MainState) :
    (mainLoop step clock cs n i e s).1 = false := by
  cases n with
  | zero => rfl
  | succ k => rw [mainLoop_succ]

theorem mainLoop_trace (step : Int) (clock : Nat → Nat) (cs : Nat → Call → Bool) (n : Nat)
    (i : Nat) (e : Engine) (s : MainState) :
    (mainLoop step clock cs n i e s).2.2.trace
      = s.trace ++ (List.replicate n tickCalls).flatten := by
  induction n with
  | zero => simp [mainLoop]
  | succ k ih =>
    rw [mainLoop_succ]
    simp only [ih, List.append_assoc]
    congr 1
    have : List.replicate (k + 1) tickCalls = List.replicate k tickCalls ++ [tickCalls] := by
      rw [List.replicate_succ']
    rw [this, List.flatten_append]
    simp

theorem flatten_replicate_window (n k : Nat) (hk : k < n) :
    ((List.replicate n tickCalls).flatten.drop (6 * k)).take 6 = tickCalls := by
  obtain ⟨m, rfl⟩ : ∃ m, n = k + (m + 1) := ⟨n - k - 1, by omega⟩
  have hlen : ((List.replicate k tickCalls).flatten).length = 6 * k := by
    induction k with
    | zero => rfl
    | succ j ih =>
      rw [List.replicate_succ, List.flatten_cons, List.length_append, ih (by omega)]
      simp [tickCalls]; omega
  rw [List.replicate_add, List.flatten_append, ← hlen, List.drop_left,
    List.replicate_succ, List.flatten_cons]
  simp [tickCalls]

theorem count_flatten_replicate (n : Nat) (c : Call) (hc : c ∈ tickCalls) :
    ((List.replicate n tickCalls).flatten).count c = n := by
  induction n with
  | zero => rfl
  | succ j ih =>
    rw [List.replicate_succ, List.flatten_cons, List.count_append, ih]
    have : tickCalls.count c = 1 := by
      simp only [tickCalls, List.mem_cons, List.mem_singleton, List.not_mem_nil, or_false] at hc
      rcases hc with h | h | h | h | h | h <;> subst h <;> decide
    omega

end XEngine

namespace XEngine

/-! ## main: startup and loop -/

theorem main_of_parse_failure (xa : Bool) (argc : Nat) (args : List CStr)
    (ir lr : Subsystem → Bool) (cs : Nat → Call → Bool) (clock : Nat → Nat)
    (otherStep : Int) (fuel : Nat)
    (h : (AnalysisLaunchParameters argc args []).1 = false) :
    main xa argc args ir lr cs clock otherStep fuel
      = ⟨if xa then Outcome.aborted else Outcome.returned 0, [], 0⟩ := by
  have hp : AnalysisLaunchParameters argc args []
      = (false, (AnalysisLaunchParameters argc args []).2) := Prod.ext h rfl
  unfold main
  rw [hp]

theorem main_of_parse_success (xa : Bool) (argc : Nat) (args : List CStr)
    (ir lr : Subsystem → Bool) (cs : Nat → Call → Bool) (clock : Nat → Nat)
    (otherStep : Int) (fuel : Nat)
    (h : (AnalysisLaunchParameters argc args []).1 = true) :
    main xa argc args ir lr cs clock otherStep fuel
      = ⟨Outcome.running,
         [⟨.net, .Initialize⟩, ⟨.logic, .Initialize⟩, ⟨.net, .Launch⟩, ⟨.logic, .Launch⟩]
           ++ (List.replicate fuel tickCalls).flatten,
         (mainLoop
            ((fixedTimeStepOf (AnalysisLaunchParameters argc args []).2).getD otherStep)
            clock cs fuel 1 {}
            ⟨[⟨.net, .Initialize⟩, ⟨.logic, .Initialize⟩, ⟨.net, .Launch⟩,
              ⟨.logic, .Launch⟩], clock 0 % 2 ^ 64⟩).2.2.tick⟩ := by
  have hp : AnalysisLaunchParameters argc args []
      = (true, (AnalysisLaunchParameters argc args []).2) := Prod.ext h rfl
  unfold main
  rw [hp]
  simp only [invoke_fst, invoke_snd, List.nil_append, List.cons_append]
  generalize (fixedTimeStepOf (AnalysisLaunchParameters argc args []).2).getD otherStep
    = step
  have hflag := mainLoop_flag step clock cs fuel 1 {}
    ⟨[⟨.net, .Initialize⟩, ⟨.logic, .Initialize⟩, ⟨.net, .Launch⟩, ⟨.logic, .Launch⟩],
      clock 0 % 2 ^ 64⟩
  have htrace := mainLoop_trace step clock cs fuel 1 {}
    ⟨[⟨.net, .Initialize⟩, ⟨.logic, .Initialize⟩, ⟨.net, .Launch⟩, ⟨.logic, .Launch⟩],
      clock 0 % 2 ^ 64⟩
  generalize mainLoop step clock cs fuel 1 {}
    ⟨[⟨.net, .Initialize⟩, ⟨.logic, .Initialize⟩, ⟨.net, .Launch⟩, ⟨.logic, .Launch⟩],
      clock 0 % 2 ^ 64⟩ = r at hflag htrace ⊢
  obtain ⟨b, e, s⟩ := r
  simp only at hflag htrace
  subst hflag
  simp only [htrace]
  rfl

end XEngine

namespace XEngine

/-! ## AnalysisLaunchParameters: the result -/

theorem strncmpEq_dashes (a : CStr) :
    strncmpEq a ['-', '-'] 2 = true ↔ "--".toList <+: a := by
  unfold strncmpEq
  rw [decide_eq_true_iff, List.prefix_iff_eq_take]
  constructor
  · intro h; exact h.symm
  · intro h; exact h.symm

theorem analysisLoop_false_iff (toks : List CStr) :
    ∀ m : ParamMap, (analysisLoop toks m).1 = false ↔ ∃ a ∈ toks, ¬ ("--".toList <+: a) := by
  induction toks with
  | nil => intro m; simp [analysisLoop]
  | cons a rest ih =>
    intro m
    rw [analysisLoop]
    by_cases ha : strncmpEq a ['-', '-'] 2 = true
    · have hpre : ['-', '-'] <+: a := (strncmpEq_dashes a).1 ha
      simp only [ha, if_true]
      split
      · rw [ih]; simp [hpre]
      · split
        · rw [ih]; simp [hpre]
        · rw [ih]; simp [hpre]
    · have hpre : ¬ ("--".toList <+: a) := fun h => ha ((strncmpEq_dashes a).2 h)
      simp only [ha]
      simp only [Bool.false_eq_true, if_false, true_iff]
      exact ⟨a, List.mem_cons_self _ _, hpre⟩

theorem mem_take_drop_one_iff (argc : Nat) (args : List CStr) (a : CStr) :
    a ∈ (args.take argc).drop 1 ↔ ∃ i, 1 ≤ i ∧ i < argc ∧ args[i]? = some a := by
  rw [List.mem_iff_getElem?]
  constructor
  · rintro ⟨n, hn⟩
    rw [List.getElem?_drop, List.getElem?_take] at hn
    by_cases h : 1 + n < argc
    · rw [if_pos h] at hn
      exact ⟨1 + n, by omega, h, hn⟩
    · rw [if_neg h] at hn
      cases hn
  · rintro ⟨i, h1, h2, h3⟩
    refine ⟨i - 1, ?_⟩
    rw [List.getElem?_drop, List.getElem?_take]
    have : 1 + (i - 1) = i := by omega
    rw [this, if_pos h2, h3]

/-! ## Claims on main and its loop -/

/-- C1: for every number of ticks `n`, the calls made by the loop of `main` over `n`
iterations are exactly `n` repetitions of net.EarlyUpdate, logic.EarlyUpdate,
net.Update, logic.Update, net.LaterUpdate, logic.LaterUpdate: the loop is still running,
each of the six calls occurs exactly `n` times, and the six calls of tick `k` stand at
positions `6 * k .. 6 * k + 5` in that order, before those of tick `k + 1`. -/
theorem main_loop_calls_per_tick (fixedTimeStep : Int) (clock : Nat → Nat)
    (callsShutdown : Nat → Call → Bool) (e : Engine) (tick : Nat) (n : Nat) :
    (mainLoop fixedTimeStep clock callsShutdown n 1 e ⟨[], tick⟩).1 = false ∧
    (mainLoop fixedTimeStep clock callsShutdown n 1 e ⟨[], tick⟩).2.2.trace
      = (List.replicate n
          [Call.mk .net .EarlyUpdate, Call.mk .logic .EarlyUpdate,
           Call.mk .net .Update, Call.mk .logic .Update,
           Call.mk .net .LaterUpdate, Call.mk .logic .LaterUpdate]).flatten ∧
    (∀ sub : Subsystem, ∀ ph ∈ [Phase.EarlyUpdate, Phase.Update, Phase.LaterUpdate],
      (mainLoop fixedTimeStep clock callsShutdown n 1 e ⟨[], tick⟩).2.2.trace.count
        (Call.mk sub ph) = n) ∧
    (∀ k, k < n →
      ((mainLoop fixedTimeStep clock callsShutdown n 1 e ⟨[], tick⟩).2.2.trace.drop
        (6 * k)).take 6
        = [Call.mk .net .EarlyUpdate, Call.mk .logic .EarlyUpdate,
           Call.mk .net .Update, Call.mk .logic .Update,
           Call.mk .net .LaterUpdate, Call.mk .logic .LaterUpdate]) := by
  have htr := mainLoop_trace fixedTimeStep clock callsShutdown n 1 e ⟨[], tick⟩
  simp only [List.nil_append] at htr
  refine ⟨mainLoop_flag _ _ _ _ _ _ _, ?_, ?_, ?_⟩
  · rw [htr]; rfl
  · intro sub ph hph
    rw [htr]
    apply count_flatten_replicate
    simp only [List.mem_cons, List.mem_singleton, List.not_mem_nil, or_false] at hph
    cases sub <;> rcases hph with h | h | h <;> subst h <;> simp [tickCalls]
  · intro k hk
    rw [htr]
    exact flatten_replicate_window n k hk

/-- C1, at three ticks: the eighteen calls. -/
theorem main_loop_calls_per_tick_witness :
    ((mainLoop 33333 (fun i => 1000 * i) (fun _ _ => false) 3 1 {} ⟨[], 0⟩).2.2.trace.drop
        (6 * 2)).take 6
      = [Call.mk .net .EarlyUpdate, Call.mk .logic .EarlyUpdate,
         Call.mk .net .Update, Call.mk .logic .Update,
         Call.mk .net .LaterUpdate, Call.mk .logic .LaterUpdate] :=
  (main_loop_calls_per_tick 33333 (fun i => 1000 * i) (fun _ _ => false) {} 0 3).2.2.2 2
    (by decide)

/-- C4: `AnalysisLaunchParameters` returns false exactly when some token `args[i]` with
`1 ≤ i < argc` does not start with the two characters `--` (`args[0]` is not examined);
and when it returns false on the empty table, `main` stops without a single subsystem
call (it returns 0, or stops inside `XASSERT`). -/
theorem analysis_false_iff_bad_token (argc : Nat) (args : List CStr) :
    (∀ m : ParamMap, (AnalysisLaunchParameters argc args m).1 = false ↔
      ∃ i a, 1 ≤ i ∧ i < argc ∧ args[i]? = some a ∧ ¬ ("--".toList <+: a)) ∧
    ((AnalysisLaunchParameters argc args []).1 = false →
      ∀ (xassertAborts : Bool) (initRes launchRes : Subsystem → Bool)
        (callsShutdown : Nat → Call → Bool) (clock : Nat → Nat) (otherStep : Int)
        (fuel : Nat),
        (main xassertAborts argc args initRes launchRes callsShutdown clock otherStep
          fuel).trace = [] ∧
        (main xassertAborts argc args initRes launchRes callsShutdown clock otherStep
          fuel).outcome
          = if xassertAborts then Outcome.aborted else Outcome.returned 0) := by
  constructor
  · intro m
    unfold AnalysisLaunchParameters
    rw [analysisLoop_false_iff]
    constructor
    · rintro ⟨a, hmem, hbad⟩
      obtain ⟨i, h1, h2, h3⟩ := (mem_take_drop_one_iff argc args a).1 hmem
      exact ⟨i, a, h1, h2, h3, hbad⟩
    · rintro ⟨i, a, h1, h2, h3, hbad⟩
      exact ⟨a, (mem_take_drop_one_iff argc args a).2 ⟨i, h1, h2, h3⟩, hbad⟩
  · intro h xa ir lr cs clock otherStep fuel
    rw [main_of_parse_failure xa argc args ir lr cs clock otherStep fuel h]
    exact ⟨rfl, rfl⟩

/-- C4, at the argument vector `xcore --a=1 -b`: the third token is malformed. -/
theorem analysis_false_iff_bad_token_witness :
    (main false 3 ["xcore".toList, "--a=1".toList, "-b".toList] (fun _ => true)
      (fun _ => true) (fun _ _ => false) (fun i => i) 0 5).trace = [] ∧
    (main false 3 ["xcore".toList, "--a=1".toList, "-b".toList] (fun _ => true)
      (fun _ => true) (fun _ _ => false) (fun i => i) 0 5).outcome = Outcome.returned 0 :=
  (analysis_false_iff_bad_token 3 ["xcore".toList, "--a=1".toList, "-b".toList]).2
    (by decide) false (fun _ => true) (fun _ => true) (fun _ _ => false) (fun i => i) 0 5

/-- C7: the code at the failing input. With `Initialize` returning false for both
subsystems, `main` still calls `Launch` and the update phases: after one iteration of
`xcore` the trace holds the ten calls below, and the same holds with a parameter such
as `--fixedTimeStep=16.667`. For every command line that parses, whatever `Initialize`
and `Launch` return, the calls of `main` are net.Initialize, logic.Initialize,
net.Launch, logic.Launch and then the six update calls of every tick, and the loop is
running. -/
theorem initialize_failure_not_checked :
    (main false 1 ["xcore".toList] (fun _ => false) (fun _ => true) (fun _ _ => false)
      (fun i => 1000 * i) 0 1).trace
      = [Call.mk .net .Initialize, Call.mk .logic .Initialize,
         Call.mk .net .Launch, Call.mk .logic .Launch,
         Call.mk .net .EarlyUpdate, Call.mk .logic .EarlyUpdate,
         Call.mk .net .Update, Call.mk .logic .Update,
         Call.mk .net .LaterUpdate, Call.mk .logic .LaterUpdate] ∧
    (main false 2 ["xcore".toList, "--fixedTimeStep=16.667".toList] (fun _ => false)
      (fun _ => true) (fun _ _ => false) (fun i => 1000 * i) 16667 1).trace
      = [Call.mk .net .Initialize, Call.mk .logic .Initialize,
         Call.mk .net .Launch, Call.mk .logic .Launch,
         Call.mk .net .EarlyUpdate, Call.mk .logic .EarlyUpdate,
         Call.mk .net .Update, Call.mk .logic .Update,
         Call.mk .net .LaterUpdate, Call.mk .logic .LaterUpdate] ∧
    (∀ (xassertAborts : Bool) (argc : Nat) (args : List CStr)
      (initRes launchRes : Subsystem → Bool) (callsShutdown : Nat → Call → Bool)
      (clock : Nat → Nat) (otherStep : Int) (fuel : Nat),
      (AnalysisLaunchParameters argc args []).1 = true →
      (main xassertAborts argc args initRes launchRes callsShutdown clock otherStep
        fuel).outcome = Outcome.running ∧
      (main xassertAborts argc args initRes launchRes callsShutdown clock otherStep
        fuel).trace
        = [Call.mk .net .Initialize, Call.mk .logic .Initialize,
           Call.mk .net .Launch, Call.mk .logic .Launch]
          ++ (List.replicate fuel
              [Call.mk .net .EarlyUpdate, Call.mk .logic .EarlyUpdate,
               Call.mk .net .Update, Call.mk .logic .Update,
               Call.mk .net .LaterUpdate, Call.mk .logic .LaterUpdate]).flatten) := by
  refine ⟨by decide, by decide, ?_⟩
  intro xa argc args ir lr cs clock otherStep fuel hparse
  rw [main_of_parse_success xa argc args ir lr cs clock otherStep fuel hparse]
  exact ⟨rfl, rfl⟩

/-- C8: the code at the failing input. After `Shutdown()` the flag still reads false;
and in a run where every subsystem call invokes `engine->Shutdown()`, the loop of `main`
is still running after any number of iterations, each of them a whole tick, and
`Release` is never reached. -/
theorem shutdown_is_not_observed :
    Engine.isShutdown (Engine.Shutdown {}) = false ∧
    ∀ (otherStep : Int) (fuel : Nat),
      (main false 1 ["xcore".toList] (fun _ => true) (fun _ => true) (fun _ _ => true)
        (fun i => 1000 * i) otherStep fuel).outcome = Outcome.running ∧
      (main false 1 ["xcore".toList] (fun _ => true) (fun _ => true) (fun _ _ => true)
        (fun i => 1000 * i) otherStep fuel).trace
        = [Call.mk .net .Initialize, Call.mk .logic .Initialize,
           Call.mk .net .Launch, Call.mk .logic .Launch]
          ++ (List.replicate fuel
              [Call.mk .net .EarlyUpdate, Call.mk .logic .EarlyUpdate,
               Call.mk .net .Update, Call.mk .logic .Update,
               Call.mk .net .LaterUpdate, Call.mk .logic .LaterUpdate]).flatten := by
  refine ⟨rfl, fun otherStep fuel => ?_⟩
  rw [main_of_parse_success false 1 ["xcore".toList] (fun _ => true) (fun _ => true)
    (fun _ _ => true) (fun i => 1000 * i) otherStep fuel (by decide)]
  exact ⟨rfl, rfl⟩

end XEngine

namespace XEngine

/-! ## The write-pending set -/

theorem mem_setInsert (p q : Nat) (l : List Nat) :
    q ∈ setInsert p l ↔ q = p ∨ q ∈ l := by
  induction l with
  | nil => simp [setInsert]
  | cons x rest ih =>
    rw [setInsert]
    split
    · simp
    · split
      · rename_i hpx
        subst hpx
        simp
      · simp only [List.mem_cons, ih]
        tauto

theorem pairwise_setInsert (p : Nat) (l : List Nat) (h : l.Pairwise (· < ·)) :
    (setInsert p l).Pairwise (· < ·) := by
  induction l with
  | nil => simp [setInsert]
  | cons x rest ih =>
    rw [List.pairwise_cons] at h
    rw [setInsert]
    split
    · rename_i hpx
      rw [List.pairwise_cons]
      refine ⟨?_, List.pairwise_cons.2 h⟩
      intro a ha
      rcases List.mem_cons.1 ha with rfl | ha
      · exact hpx
      · exact lt_trans hpx (h.1 a ha)
    · split
      · exact List.pairwise_cons.2 h
      · rename_i h1 h2
        rw [List.pairwise_cons]
        refine ⟨?_, ih h.2⟩
        intro a ha
        rcases (mem_setInsert p a rest).1 ha with rfl | ha
        · omega
        · exact h.1 a ha

theorem setInsert_of_mem (p : Nat) (l : List Nat) (h : l.Pairwise (· < ·)) (hp : p ∈ l) :
    setInsert p l = l := by
  induction l with
  | nil => cases hp
  | cons x rest ih =>
    rw [List.pairwise_cons] at h
    rw [setInsert]
    rcases List.mem_cons.1 hp with rfl | hp
    · simp
    · have hlt : x < p := h.1 p hp
      rw [if_neg (by omega), if_neg (by omega), ih h.2 hp]

theorem setErase_of_not_mem (p : Nat) (l : List Nat) (hp : p ∉ l) : setErase p l = l := by
  induction l with
  | nil => rfl
  | cons x rest ih =>
    rw [List.mem_cons, not_or] at hp
    rw [setErase, if_neg hp.1, ih hp.2]

theorem mem_setErase (p q : Nat) (l : List Nat) (h : l.Pairwise (· < ·)) :
    q ∈ setErase p l ↔ q ≠ p ∧ q ∈ l := by
  induction l with
  | nil => simp [setErase]
  | cons x rest ih =>
    rw [List.pairwise_cons] at h
    rw [setErase]
    split
    · rename_i hpx
      subst hpx
      constructor
      · intro hq
        exact ⟨by have := h.1 q hq; omega, List.mem_cons_of_mem _ hq⟩
      · rintro ⟨hne, hq⟩
        rcases List.mem_cons.1 hq with rfl | hq
        · exact absurd rfl hne
        · exact hq
    · rename_i hpx
      simp only [List.mem_cons, ih h.2]
      constructor
      · rintro (rfl | ⟨h1, h2⟩)
        · exact ⟨fun h => hpx h.symm, Or.inl rfl⟩
        · exact ⟨h1, Or.inr h2⟩
      · rintro ⟨h1, rfl | h2⟩
        · exact Or.inl rfl
        · exact Or.inr ⟨h1, h2⟩

theorem pairwise_setErase (p : Nat) (l : List Nat) (h : l.Pairwise (· < ·)) :
    (setErase p l).Pairwise (· < ·) := by
  induction l with
  | nil => simp [setErase]
  | cons x rest ih =>
    rw [List.pairwise_cons] at h
    rw [setErase]
    split
    · exact h.2
    · rw [List.pairwise_cons]
      refine ⟨?_, ih h.2⟩
      intro a ha
      exact h.1 a ((mem_setErase p a rest h.2).1 ha).2

theorem count_le_one_of_pairwise (q : Nat) (l : List Nat) (h : l.Pairwise (· < ·)) :
    l.count q ≤ 1 := by
  have hnd : l.Nodup := h.imp (fun hab => Nat.ne_of_lt hab)
  exact List.nodup_iff_count_le_one.1 hnd q

/-- C2: for every write-pending set `S` and connection `p`: `TcpNeedSend p` leaves a set
that holds `p` unchanged and `TcpNoNeedSend p` leaves a set that lacks `p` unchanged;
either mutator applied twice gives what it gives once; afterwards the set holds `p`
exactly once (after insertion) or not at all (after erasure); the set holds no element
twice, before or after, and is again a well-formed set with the expected members. -/
theorem write_pending_set_idempotent (S : Net) (p : Nat) (h : S.wellFormed) :
    (p ∈ S._tcp_need_send → S.TcpNeedSend p = S) ∧
    (p ∉ S._tcp_need_send → S.TcpNoNeedSend p = S) ∧
    (S.TcpNeedSend p).TcpNeedSend p = S.TcpNeedSend p ∧
    (S.TcpNoNeedSend p).TcpNoNeedSend p = S.TcpNoNeedSend p ∧
    (S.TcpNeedSend p)._tcp_need_send.count p = 1 ∧
    (S.TcpNoNeedSend p)._tcp_need_send.count p = 0 ∧
    (∀ q, S._tcp_need_send.count q ≤ 1 ∧
      (S.TcpNeedSend p)._tcp_need_send.count q ≤ 1 ∧
      (S.TcpNoNeedSend p)._tcp_need_send.count q ≤ 1) ∧
    (∀ q, q ∈ (S.TcpNeedSend p)._tcp_need_send ↔ q = p ∨ q ∈ S._tcp_need_send) ∧
    (∀ q, q ∈ (S.TcpNoNeedSend p)._tcp_need_send ↔ q ≠ p ∧ q ∈ S._tcp_need_send) ∧
    (S.TcpNeedSend p).wellFormed ∧ (S.TcpNoNeedSend p).wellFormed := by
  obtain ⟨l⟩ := S
  have h : l.Pairwise (· < ·) := h
  have hins := pairwise_setInsert p l h
  have hers := pairwise_setErase p l h
  have hmem_ins : p ∈ setInsert p l := (mem_setInsert p p l).2 (Or.inl rfl)
  have hmem_ers : p ∉ setErase p l := fun hp => ((mem_setErase p p l h).1 hp).1 rfl
  refine ⟨?_, ?_, ?_, ?_, ?_, ?_, ?_, ?_, ?_, hins, hers⟩
  · intro hp
    show Net.mk (setInsert p l) = Net.mk l
    rw [setInsert_of_mem p l h hp]
  · intro hp
    show Net.mk (setErase p l) = Net.mk l
    rw [setErase_of_not_mem p l hp]
  · show Net.mk (setInsert p (setInsert p l)) = Net.mk (setInsert p l)
    rw [setInsert_of_mem p _ hins hmem_ins]
  · show Net.mk (setErase p (setErase p l)) = Net.mk (setErase p l)
    rw [setErase_of_not_mem p _ hmem_ers]
  · show (setInsert p l).count p = 1
    have h1 := count_le_one_of_pairwise p _ hins
    have h2 : 0 < (setInsert p l).count p := List.count_pos_iff.2 hmem_ins
    omega
  · show (setErase p l).count p = 0
    exact List.count_eq_zero.2 hmem_ers
  · intro q
    exact ⟨count_le_one_of_pairwise q _ h, count_le_one_of_pairwise q _ hins,
      count_le_one_of_pairwise q _ hers⟩
  · intro q
    exact mem_setInsert p q l
  · intro q
    exact mem_setErase p q l h

/-- C2, at the set of the connections 3 and 8, for connection 8. -/
theorem write_pending_set_idempotent_witness :
    (Net.mk [3, 8]).wellFormed ∧
    (8 ∈ (Net.mk [3, 8])._tcp_need_send → (Net.mk [3, 8]).TcpNeedSend 8 = Net.mk [3, 8]) ∧
    ((Net.mk [3, 8]).TcpNoNeedSend 8).TcpNoNeedSend 8 = (Net.mk [3, 8]).TcpNoNeedSend 8 :=
  ⟨by decide,
   (write_pending_set_idempotent (Net.mk [3, 8]) 8 (by decide)).1,
   (write_pending_set_idempotent (Net.mk [3, 8]) 8 (by decide)).2.2.2.1⟩

end XEngine

namespace XEngine

/-! ## The tick reference -/

theorem toU64_of_pos (step : Int) (hpos : 0 < step) (hint : step < 2 ^ 31) :
    toU64 step = step.toNat := by
  unfold toU64
  omega

theorem advanceTick_eq (step : Int) (tick tick2 : Nat) (hpos : 0 < step)
    (hint : step < 2 ^ 31) (h1 : tick ≤ tick2) (h2 : tick2 < 2 ^ 64) :
    advanceTick step tick (tick2 % 2 ^ 64)
      = if tick2 - tick ≥ step.toNat then tick + step.toNat else tick := by
  unfold advanceTick
  rw [toU64_of_pos step hpos hint, Nat.mod_eq_of_lt h2]
  have hsub : (tick2 + 2 ^ 64 - tick) % 2 ^ 64 = tick2 - tick := by omega
  rw [hsub]
  by_cases hc : tick2 - tick ≥ step.toNat
  · rw [if_pos hc, if_pos hc]
    apply Nat.mod_eq_of_lt
    omega
  · rw [if_neg hc, if_neg hc]

/-- The invariants of a sequence of tick values produced by `advanceTick`. -/
theorem tick_sequence (step : Int) (clock T : Nat → Nat) (n : Nat)
    (hpos : 0 < step) (hint : step < 2 ^ 31)
    (hmono : ∀ i, i < n → clock i ≤ clock (i + 1))
    (hlt : ∀ i, i ≤ n → clock i < 2 ^ 64)
    (h0 : T 0 = clock 0)
    (hT : ∀ k, T (k + 1) = advanceTick step (T k) (clock (k + 1) % 2 ^ 64)) :
    (∀ k, k < n →
      T (k + 1) = if clock (k + 1) - T k ≥ step.toNat then T k + step.toNat else T k) ∧
    (∀ k, k ≤ n → T k ≤ clock k ∧
      ∃ j, j ≤ k ∧ j ≤ (clock k - clock 0) / step.toNat ∧ T k = clock 0 + step.toNat * j) ∧
    ((∀ i, i < n → clock (i + 1) - clock i ≤ step.toNat) →
      ∀ k, k ≤ n →
        T k = clock 0 + step.toNat * ((clock k - clock 0) / step.toNat) ∧
        clock k - T k < step.toNat) := by
  have hd : 0 < step.toNat := by omega
  -- the tick never runs ahead of the clock, and is a whole number of steps from the start
  have hinv : ∀ k, k ≤ n → T k ≤ clock k ∧ ∃ j, j ≤ k ∧ T k = clock 0 + step.toNat * j := by
    intro k
    induction k with
    | zero => intro _; exact ⟨by omega, 0, le_refl _, by simp [h0]⟩
    | succ k ih =>
      intro hk
      obtain ⟨hle, j, hj, hTj⟩ := ih (by omega)
      have hm := hmono k (by omega)
      rw [hT k, advanceTick_eq step (T k) (clock (k + 1)) hpos hint (by omega)
        (hlt (k + 1) hk)]
      by_cases hc : clock (k + 1) - T k ≥ step.toNat
      · rw [if_pos hc]
        refine ⟨by omega, j + 1, by omega, ?_⟩
        rw [hTj, Nat.mul_add, Nat.mul_one, Nat.add_assoc]
      · rw [if_neg hc]
        exact ⟨by omega, j, by omega, hTj⟩
  have hstep : ∀ k, k < n →
      T (k + 1) = if clock (k + 1) - T k ≥ step.toNat then T k + step.toNat else T k := by
    intro k hk
    have hm := hmono k hk
    rw [hT k, advanceTick_eq step (T k) (clock (k + 1)) hpos hint
      (by have := (hinv k (by omega)).1; omega) (hlt (k + 1) (by omega))]
  refine ⟨hstep, ?_, ?_⟩
  · intro k hk
    obtain ⟨hle, j, hj, hTj⟩ := hinv k hk
    refine ⟨hle, j, hj, ?_, hTj⟩
    rw [Nat.le_div_iff_mul_le hd]
    rw [Nat.mul_comm]
    omega
  · intro hshort
    have hrem : ∀ k, k ≤ n → clock k - T k < step.toNat := by
      intro k
      induction k with
      | zero => intro _; rw [h0]; omega
      | succ k ih =>
        intro hk
        have hr := ih (by omega)
        have hs := hshort k (by omega)
        have hm := hmono k (by omega)
        have hle := (hinv k (by omega)).1
        rw [hstep k (by omega)]
        by_cases hc : clock (k + 1) - T k ≥ step.toNat
        · rw [if_pos hc]; omega
        · rw [if_neg hc]; omega
    intro k hk
    obtain ⟨hle, j, hj, hTj⟩ := hinv k hk
    have hr := hrem k hk
    refine ⟨?_, hr⟩
    have hdiv : (clock k - clock 0) / step.toNat = j := by
      apply Nat.div_eq_of_lt_le
      · rw [Nat.mul_comm]; omega
      · rw [Nat.succ_mul, Nat.mul_comm]; omega
    rw [hdiv, hTj]

end XEngine

namespace XEngine

/-- C3, as the claim states it, fails: with a tick of 33333 microseconds and a first
iteration that lasts 100000 microseconds, the tick reference advances by one step only
(to 1033333, not to 1099999), and the remainder 66667 is not below the step. -/
theorem tick_lags_after_slow_iteration :
    (mainLoop 33333 (fun i => 1000000 + 100000 * i) (fun _ _ => false) 1 1 {}
      ⟨[], 1000000 % 2 ^ 64⟩).2.2.tick = 1033333 ∧
    1000000 + 33333 * ((1100000 - 1000000) / 33333) = 1099999 ∧
    ¬ (1100000 - 1033333 < 33333) := by
  decide

/-- C3, amended: for every positive `fixedTimeStep` and every non-decreasing sequence of
clock readings below `2 ^ 64`, an iteration advances the tick reference by exactly one
`fixedTimeStep` when at least that much has elapsed since the reference, and leaves it
unchanged otherwise. So after `k` iterations the reference is the start plus a whole
number `j ≤ k` of steps, with `j` at most the number of whole steps elapsed, and it is
never ahead of the clock. When moreover no iteration lasts longer than one
`fixedTimeStep`, after every iteration
`tick = start + fixedTimeStep * floor((now - start) / fixedTimeStep)` and the carried
remainder `now - tick` is smaller than `fixedTimeStep`. -/
theorem tick_advances_at_most_one_step (fixedTimeStep : Int) (clock : Nat → Nat)
    (callsShutdown : Nat → Call → Bool) (e : Engine) (trace : List Call) (n : Nat)
    (hpos : 0 < fixedTimeStep) (hint : fixedTimeStep < 2 ^ 31)
    (hmono : ∀ i, i < n → clock i ≤ clock (i + 1))
    (hlt : ∀ i, i ≤ n → clock i < 2 ^ 64) :
    (∀ k, k < n →
      (mainLoop fixedTimeStep clock callsShutdown (k + 1) 1 e
          ⟨trace, clock 0 % 2 ^ 64⟩).2.2.tick
        = if clock (k + 1)
              - (mainLoop fixedTimeStep clock callsShutdown k 1 e
                  ⟨trace, clock 0 % 2 ^ 64⟩).2.2.tick ≥ fixedTimeStep.toNat
          then (mainLoop fixedTimeStep clock callsShutdown k 1 e
                  ⟨trace, clock 0 % 2 ^ 64⟩).2.2.tick + fixedTimeStep.toNat
          else (mainLoop fixedTimeStep clock callsShutdown k 1 e
                  ⟨trace, clock 0 % 2 ^ 64⟩).2.2.tick) ∧
    (∀ k, k ≤ n →
      (mainLoop fixedTimeStep clock callsShutdown k 1 e
          ⟨trace, clock 0 % 2 ^ 64⟩).2.2.tick ≤ clock k ∧
      ∃ j, j ≤ k ∧ j ≤ (clock k - clock 0) / fixedTimeStep.toNat ∧
        (mainLoop fixedTimeStep clock callsShutdown k 1 e
            ⟨trace, clock 0 % 2 ^ 64⟩).2.2.tick = clock 0 + fixedTimeStep.toNat * j) ∧
    ((∀ i, i < n → clock (i + 1) - clock i ≤ fixedTimeStep.toNat) →
      ∀ k, k ≤ n →
        (mainLoop fixedTimeStep clock callsShutdown k 1 e
            ⟨trace, clock 0 % 2 ^ 64⟩).2.2.tick
          = clock 0 + fixedTimeStep.toNat * ((clock k - clock 0) / fixedTimeStep.toNat) ∧
        clock k
          - (mainLoop fixedTimeStep clock callsShutdown k 1 e
              ⟨trace, clock 0 % 2 ^ 64⟩).2.2.tick < fixedTimeStep.toNat) := by
  apply tick_sequence fixedTimeStep clock
    (fun k => (mainLoop fixedTimeStep clock callsShutdown k 1 e
      ⟨trace, clock 0 % 2 ^ 64⟩).2.2.tick) n hpos hint hmono hlt
  · show clock 0 % 2 ^ 64 = clock 0
    exact Nat.mod_eq_of_lt (hlt 0 (Nat.zero_le n))
  · intro k
    show (mainLoop fixedTimeStep clock callsShutdown (k + 1) 1 e
      ⟨trace, clock 0 % 2 ^ 64⟩).2.2.tick = _
    rw [mainLoop_succ, Nat.add_comm 1 k]

/-- C3, amended, at a 33333 microsecond tick and iterations of 20000 microseconds: after
three iterations one whole step has elapsed and 26667 microseconds are carried. -/
theorem tick_advances_at_most_one_step_witness :
    (mainLoop 33333 (fun i => 1000000 + 20000 * i) (fun _ _ => false) 3 1 {}
        ⟨[], (1000000 + 20000 * 0) % 2 ^ 64⟩).2.2.tick
      = (1000000 + 20000 * 0)
        + (33333 : Int).toNat
          * (((1000000 + 20000 * 3) - (1000000 + 20000 * 0)) / (33333 : Int).toNat) ∧
    (1000000 + 20000 * 3)
      - (mainLoop 33333 (fun i => 1000000 + 20000 * i) (fun _ _ => false) 3 1 {}
          ⟨[], (1000000 + 20000 * 0) % 2 ^ 64⟩).2.2.tick < (33333 : Int).toNat :=
  (tick_advances_at_most_one_step 33333 (fun i => 1000000 + 20000 * i) (fun _ _ => false)
    {} [] 3 (by decide) (by decide) (fun i _ => by dsimp only; omega)
    (fun i hi => by dsimp only; omega)).2.2 (fun i _ => by
      have : (33333 : Int).toNat = 33333 := rfl
      omega) 3 (le_refl 3)

end XEngine

namespace XEngine

/-! ## The launch parameter table -/

theorem mapFind_mapAssign (m : ParamMap) (k v k' : CStr) :
    mapFind (mapAssign m k v) k' = if k = k' then some v else mapFind m k' := by
  induction m with
  | nil => simp [mapAssign, mapFind]
  | cons kv rest ih =>
    obtain ⟨k0, v0⟩ := kv
    rw [mapAssign]
    by_cases h0 : k0 = k
    · subst h0
      simp only [if_true, mapFind]
      by_cases h1 : k0 = k' <;> simp [h1]
    · simp only [h0, if_false, mapFind, ih]
      by_cases h1 : k0 = k'
      · have : ¬ k = k' := fun h => h0 (h1.trans h.symm)
        simp [h1, this]
      · simp [h1]

theorem findAux_eq_char (s : CStr) :
    ∀ i : Nat, findAux ['='] s i
      = if s.dropWhile (fun c => c != '=') = [] then none
        else some (i + (s.takeWhile (fun c => c != '=')).length) := by
  induction s with
  | nil => intro i; simp [findAux]
  | cons c t ih =>
    intro i
    rw [findAux]
    by_cases hc : c = '='
    · subst hc
      simp [List.isPrefixOf, List.dropWhile, List.takeWhile]
    · have h1 : (['='] : CStr).isPrefixOf (c :: t) = false := by
        simp [List.isPrefixOf, Ne.symm hc]
      have h2 : (c != '=') = true := by simp [hc]
      rw [h1]
      simp only [Bool.false_eq_true, if_false, ih, List.dropWhile_cons, List.takeWhile_cons,
        h2, if_true, List.length_cons]
      split
      · rfl
      · congr 1; omega

theorem take_length_takeWhile (p : Char → Bool) (s : CStr) :
    s.take (s.takeWhile p).length = s.takeWhile p := by
  induction s with
  | nil => rfl
  | cons c t ih =>
    by_cases hc : p c = true
    · simp [List.takeWhile_cons, hc, ih]
    · simp [List.takeWhile_cons, hc]

theorem drop_length_takeWhile (p : Char → Bool) (s : CStr) :
    s.drop (s.takeWhile p).length = s.dropWhile p := by
  induction s with
  | nil => rfl
  | cons c t ih =>
    by_cases hc : p c = true
    · simp [List.takeWhile_cons, List.dropWhile_cons, hc, ih]
    · simp [List.takeWhile_cons, List.dropWhile_cons, hc]

/-- One step of the loop on a token that starts with `--`: the bare `--` stores nothing,
any other token stores its value under its name. -/
theorem analysisLoop_cons (a : CStr) (rest : List CStr) (m : ParamMap)
    (ha : "--".toList <+: a) :
    analysisLoop (a :: rest) m
      = analysisLoop rest
          (if a = "--".toList then m else mapAssign m (tokenName a) (tokenValue a)) := by
  obtain ⟨start, rfl⟩ := ha
  have hcmp : strncmpEq ("--".toList ++ start) ['-', '-'] 2 = true :=
    (strncmpEq_dashes _).2 ⟨start, rfl⟩
  rw [analysisLoop]
  simp only [hcmp, if_true]
  have hdrop : ("--".toList ++ start).drop 2 = start := rfl
  have hlen : ("--".toList ++ start).length = start.length + 2 := by
    simp only [List.length_append]
    exact Nat.add_comm _ _
  have heq : ("--".toList ++ start = "--".toList) ↔ start = [] := by
    constructor
    · intro h
      have := congrArg (List.drop 2) h
      simpa using this
    · rintro rfl; rfl
  simp only [hdrop, hlen, tokenName, tokenValue, strstr, findAux_eq_char, heq]
  by_cases hd : start.dropWhile (fun c => c != '=') = []
  · simp only [hd, if_true, List.drop_nil]
    have htw : start.takeWhile (fun c => c != '=') = start := by
      have := drop_length_takeWhile (fun c => c != '=') start
      rw [hd] at this
      have hle : start.length ≤ (start.takeWhile (fun c => c != '=')).length :=
        List.drop_eq_nil_iff.1 this
      have := take_length_takeWhile (fun c => c != '=') start
      rw [List.take_of_length_le hle] at this
      exact this.symm
    rw [htw]
    by_cases hs : start = []
    · subst hs; simp
    · have : start.length + 2 > 2 := by
        have := List.length_pos.2 hs
        omega
      simp [hs, this]
  · have hs : start ≠ [] := by
      rintro rfl
      exact hd rfl
    simp only [hd, if_false, hs, Nat.zero_add, take_length_takeWhile]
    rw [← drop_length_takeWhile, List.drop_drop]

theorem lookupLast_cons (t : CStr) (ts : List CStr) (k : CStr) :
    lookupLast (t :: ts) k
      = (lookupLast ts k).or (if tokenName t = k then some (tokenValue t) else none) := by
  unfold lookupLast
  by_cases h : tokenName t = k
  · simp only [List.filter_cons, h, decide_True, if_true]
    rw [List.getLast?_cons]
    generalize (List.filter (fun t => decide (tokenName t = k)) ts).getLast? = o
    cases o <;> rfl
  · simp only [List.filter_cons, h, decide_False, if_false]
    rw [Option.or_none]
    rfl

theorem analysisLoop_lookup (toks : List CStr) (k : CStr) :
    ∀ m : ParamMap, (∀ t ∈ toks, "--".toList <+: t) →
      (analysisLoop toks m).1 = true ∧
      mapFind (analysisLoop toks m).2 k
        = (lookupLast (withoutBareDashes toks) k).or (mapFind m k) := by
  induction toks with
  | nil => intro m _; simp [analysisLoop, withoutBareDashes, lookupLast]
  | cons a rest ih =>
    intro m hall
    have ha := hall a (List.mem_cons_self _ _)
    have hrest : ∀ t ∈ rest, "--".toList <+: t :=
      fun t ht => hall t (List.mem_cons_of_mem _ ht)
    rw [analysisLoop_cons a rest m ha]
    by_cases hbare : a = "--".toList
    · rw [if_pos hbare]
      have hf : withoutBareDashes (a :: rest) = withoutBareDashes rest := by
        simp [withoutBareDashes, hbare]
      rw [hf]
      exact ih m hrest
    · rw [if_neg hbare]
      have hf : withoutBareDashes (a :: rest) = a :: withoutBareDashes rest := by
        simp only [withoutBareDashes, List.filter_cons]
        rw [if_pos (by simpa using hbare)]
      rw [hf, lookupLast_cons]
      obtain ⟨h1, h2⟩ := ih (mapAssign m (tokenName a) (tokenValue a)) hrest
      refine ⟨h1, ?_⟩
      rw [h2, mapFind_mapAssign]
      cases lookupLast (withoutBareDashes rest) k <;>
        by_cases hk : tokenName a = k <;> simp [hk]

theorem lookupLast_withoutBareDashes (toks : List CStr) (k : CStr) (hk : k ≠ []) :
    lookupLast (withoutBareDashes toks) k = lookupLast toks k := by
  unfold lookupLast withoutBareDashes
  rw [List.filter_filter]
  congr 2
  apply List.filter_congr
  intro t _
  by_cases ht : t = "--".toList
  · subst ht
    have h1 : tokenName "--".toList = [] := rfl
    have h2 : ¬ (tokenName "--".toList = k) := fun h => hk (h.symm.trans h1)
    rw [decide_eq_false h2]
    rfl
  · rw [decide_eq_true (show t ≠ "--".toList from ht), Bool.and_true]

end XEngine

namespace XEngine

/-- C5, as the claim states it, fails for the empty name: after `xcore --` the table has
no entry for the empty name (the lookup returns null), although the last token naming
it is the bare flag `--`, for which the claim gives the empty string. -/
theorem bare_dashes_store_nothing :
    GetLaunchParameter
      (AnalysisLaunchParameters 2 ["xcore".toList, "--".toList] []).2 [] = none ∧
    lookupLast ["--".toList] [] = some [] := by
  decide

/-- C5, amended: starting from an empty table, for every argument vector whose tokens
from index 1 on all start with `--`, `AnalysisLaunchParameters` returns true and a bare
token `--` stores nothing; with those tokens left out, `GetLaunchParameter k` is the
value of the last token naming `k` (the text after the first `=`, or the empty string
for a bare flag) and null when no token names `k`. For every non-empty name `k` this
is the claim as stated, bare `--` tokens included. -/
theorem launch_parameter_lookup (argc : Nat) (args : List CStr)
    (hall : ∀ t ∈ (args.take argc).drop 1, "--".toList <+: t) :
    (AnalysisLaunchParameters argc args []).1 = true ∧
    (∀ k, GetLaunchParameter (AnalysisLaunchParameters argc args []).2 k
      = lookupLast (withoutBareDashes ((args.take argc).drop 1)) k) ∧
    (∀ k, k ≠ [] → GetLaunchParameter (AnalysisLaunchParameters argc args []).2 k
      = lookupLast ((args.take argc).drop 1) k) := by
  have hget : ∀ m k, GetLaunchParameter m k = mapFind m k := by
    intro m k
    unfold GetLaunchParameter
    cases mapFind m k <;> rfl
  have key : ∀ k, GetLaunchParameter (AnalysisLaunchParameters argc args []).2 k
      = lookupLast (withoutBareDashes ((args.take argc).drop 1)) k := by
    intro k
    rw [hget]
    unfold AnalysisLaunchParameters
    rw [(analysisLoop_lookup _ k [] hall).2]
    simp [mapFind]
  refine ⟨?_, key, ?_⟩
  · unfold AnalysisLaunchParameters
    exact (analysisLoop_lookup _ [] [] hall).1
  · intro k hk
    rw [key k, lookupLast_withoutBareDashes _ k hk]

/-- C5, amended, at `xcore --a=1 --b --a=x=y --`: the lookups of `a`, `b` and `c`. -/
theorem launch_parameter_lookup_witness :
    (∀ t ∈ (["xcore".toList, "--a=1".toList, "--b".toList, "--a=x=y".toList,
        "--".toList].take 5).drop 1, "--".toList <+: t) ∧
    GetLaunchParameter (AnalysisLaunchParameters 5
      ["xcore".toList, "--a=1".toList, "--b".toList, "--a=x=y".toList, "--".toList] []).2
        "a".toList
      = lookupLast ((["xcore".toList, "--a=1".toList, "--b".toList, "--a=x=y".toList,
          "--".toList].take 5).drop 1) "a".toList ∧
    lookupLast ((["xcore".toList, "--a=1".toList, "--b".toList, "--a=x=y".toList,
          "--".toList].take 5).drop 1) "a".toList = some "x=y".toList ∧
    lookupLast ((["xcore".toList, "--a=1".toList, "--b".toList, "--a=x=y".toList,
          "--".toList].take 5).drop 1) "b".toList = some [] ∧
    lookupLast ((["xcore".toList, "--a=1".toList, "--b".toList, "--a=x=y".toList,
          "--".toList].take 5).drop 1) "c".toList = none :=
  ⟨by decide,
   (launch_parameter_lookup 5
      ["xcore".toList, "--a=1".toList, "--b".toList, "--a=x=y".toList, "--".toList]
      (by decide)).2.2 "a".toList (by decide),
   by decide, by decide, by decide⟩

end XEngine

namespace XEngine

/-! ## The tick duration -/

theorem dropBits_of_lt (p fuel n : Nat) (h : n < 2 ^ p) : dropBits p fuel n = 0 := by
  cases fuel with
  | zero => rfl
  | succ f => rw [dropBits, if_pos h]

theorem roundToPrec_of_lt (p n : Nat) (h : n < 2 ^ p) : roundToPrec p n = n := by
  unfold roundToPrec
  simp [dropBits_of_lt p n n h, Nat.mod_one]

theorem parseDigits_snoc (s : CStr) (c : Char) :
    ∀ acc : Nat, parseDigits (s ++ [c]) acc
      = match parseDigits s acc with
        | some v => if c.isDigit then some (v * 10 + (c.toNat - '0'.toNat)) else none
        | none => none := by
  induction s with
  | nil => intro acc; simp [parseDigits]
  | cons d t ih =>
    intro acc
    rw [List.cons_append, parseDigits, parseDigits]
    by_cases hd : d.isDigit = true
    · simp only [hd, if_true, ih]
    · simp only [hd]
      simp

theorem digitChar_isDigit (d : Nat) (h : d < 10) :
    (Nat.digitChar d).isDigit = true ∧ (Nat.digitChar d).toNat - '0'.toNat = d := by
  interval_cases d <;> exact ⟨rfl, rfl⟩

theorem toDigitsCore_append (fuel : Nat) :
    ∀ (n : Nat) (ds : List Char),
      Nat.toDigitsCore 10 fuel n ds = Nat.toDigitsCore 10 fuel n [] ++ ds := by
  induction fuel with
  | zero => intro n ds; simp [Nat.toDigitsCore]
  | succ f ih =>
    intro n ds
    simp only [Nat.toDigitsCore]
    split
    · simp
    · rw [ih (n / 10) (Nat.digitChar (n % 10) :: ds), ih (n / 10) [Nat.digitChar (n % 10)]]
      simp

theorem parseDigits_toDigitsCore (fuel : Nat) :
    ∀ n : Nat, n < fuel → parseDigits (Nat.toDigitsCore 10 fuel n []) 0 = some n := by
  induction fuel with
  | zero => intro n h; omega
  | succ f ih =>
    intro n hn
    simp only [Nat.toDigitsCore]
    split
    · rename_i h0
      have hlt : n < 10 := by omega
      have hmod : n % 10 = n := Nat.mod_eq_of_lt hlt
      obtain ⟨h1, h2⟩ := digitChar_isDigit n hlt
      rw [hmod, parseDigits, if_pos h1, h2, parseDigits]
      simp
    · rename_i h0
      rw [toDigitsCore_append, parseDigits_snoc, ih (n / 10) (by omega)]
      obtain ⟨h1, h2⟩ := digitChar_isDigit (n % 10) (Nat.mod_lt _ (by decide))
      simp only [h1, if_true, h2]
      congr 1
      omega

theorem parseDigits_toDigits (n : Nat) : parseDigits (Nat.toDigits 10 n) 0 = some n := by
  unfold Nat.toDigits
  exact parseDigits_toDigitsCore (n + 1) n (Nat.lt_succ_self n)

theorem toDigits_ne_nil (n : Nat) : Nat.toDigits 10 n ≠ [] := by
  unfold Nat.toDigits
  simp only [Nat.toDigitsCore]
  split
  · simp
  · rw [toDigitsCore_append]
    simp

/-- The table after `xcore --fixedTimeStep=<text>`. -/
theorem analysis_fixedTimeStep (text : CStr) :
    (AnalysisLaunchParameters 2 ["xcore".toList, "--fixedTimeStep=".toList ++ text] []).2
      = [(fixedTimeStepKey, text)] := by
  unfold AnalysisLaunchParameters
  have hpre : "--".toList <+: "--fixedTimeStep=".toList ++ text :=
    ⟨"fixedTimeStep=".toList ++ text, rfl⟩
  have hne : ¬ ("--fixedTimeStep=".toList ++ text = "--".toList) := by
    intro h
    have := congrArg List.length h
    simp at this
  show (analysisLoop ["--fixedTimeStep=".toList ++ text] []).2 = _
  rw [analysisLoop_cons _ _ _ hpre, if_neg hne]
  have hname : tokenName ("--fixedTimeStep=".toList ++ text) = fixedTimeStepKey := by
    simp [tokenName, fixedTimeStepKey, List.takeWhile]
  have hval : tokenValue ("--fixedTimeStep=".toList ++ text) = text := by
    simp [tokenValue, List.dropWhile]
  rw [hname, hval]
  rfl

theorem fixedTimeStepOf_digits (text : CStr) (N : Nat) (hne : text ≠ [])
    (hparse : parseDigits text 0 = some N) (hN : N < 2 ^ 24) :
    fixedTimeStepOf
      (AnalysisLaunchParameters 2 ["xcore".toList, "--fixedTimeStep=".toList ++ text] []).2
      = floatToInt (roundToPrec 24 (N * 1000)) := by
  rw [analysis_fixedTimeStep text]
  have hget : GetLaunchParameter [(fixedTimeStepKey, text)] fixedTimeStepKey = some text := by
    simp [GetLaunchParameter, mapFind]
  have h53 : roundToPrec 53 N = N :=
    roundToPrec_of_lt 53 N (lt_trans hN (by norm_num))
  have h24 : roundToPrec 24 N = N := roundToPrec_of_lt 24 N hN
  have hk : roundToPrec 24 1000 = 1000 := roundToPrec_of_lt 24 1000 (by norm_num)
  simp only [fixedTimeStepOf, hget, StringToFloat, atof, hne, if_false, hparse, Option.map_some',
    h53, h24, floatMulInt, hk]

end XEngine

namespace XEngine

/-- C6, as the claim states it, fails: for `--fixedTimeStep=16667` the tick duration the
loop of `main` is given is 16667000 microseconds, not 16667. -/
theorem fixedTimeStep_16667_is_scaled :
    fixedTimeStepOf
      (AnalysisLaunchParameters 2 ["xcore".toList, "--fixedTimeStep=16667".toList] []).2
      = some 16667000 ∧
    (16667000 : Int) ≠ 16667 := by
  decide

/-- C6, amended: the tick duration is 33333 microseconds when no `fixedTimeStep`
parameter is present. The value of the parameter is read as a `float` and multiplied by
1000: for every positive integer `N` with `N * 1000 < 2 ^ 24` (so that the `float`
arithmetic is exact) given as `--fixedTimeStep=N` the tick duration is `N * 1000`
microseconds (16667000 for `--fixedTimeStep=16667`). -/
theorem fixedTimeStep_is_scaled_by_1000 :
    (∀ m : ParamMap, GetLaunchParameter m fixedTimeStepKey = none →
      fixedTimeStepOf m = some 33333) ∧
    fixedTimeStepOf (AnalysisLaunchParameters 1 ["xcore".toList] []).2 = some 33333 ∧
    (∀ N : Nat, 0 < N → N * 1000 < 2 ^ 24 →
      fixedTimeStepOf
        (AnalysisLaunchParameters 2
          ["xcore".toList, "--fixedTimeStep=".toList ++ Nat.toDigits 10 N] []).2
        = some ((N * 1000 : Nat) : Int)) := by
  refine ⟨?_, by decide, ?_⟩
  · intro m hm
    simp only [fixedTimeStepOf, hm]
  · intro N _ hN
    rw [fixedTimeStepOf_digits _ N (toDigits_ne_nil N) (parseDigits_toDigits N) (by omega),
      roundToPrec_of_lt 24 _ hN]
    unfold floatToInt
    rw [if_pos (by omega)]

/-- C6, amended, at `N = 16667`. -/
theorem fixedTimeStep_is_scaled_by_1000_witness :
    fixedTimeStepOf
      (AnalysisLaunchParameters 2
        ["xcore".toList, "--fixedTimeStep=".toList ++ Nat.toDigits 10 16667] []).2
      = some ((16667 * 1000 : Nat) : Int) :=
  fixedTimeStep_is_scaled_by_1000.2.2 16667 (by decide) (by decide)

end XEngine

namespace SafeString

open XEngine (CStr findAux)

/-! ## Replace -/

theorem scanReplace_skip (src dst : CStr) (s : CStr) :
    ∀ n : Nat, scanReplace src dst s n = scanReplace src dst (s.drop n) 0 := by
  induction s with
  | nil => intro n; simp [scanReplace]
  | cons c t ih =>
    intro n
    cases n with
    | zero => rfl
    | succ k => rw [scanReplace, List.drop_succ_cons, ih k]

theorem scanCount_skip (src : CStr) (s : CStr) :
    ∀ n : Nat, scanCount src s n = scanCount src (s.drop n) 0 := by
  induction s with
  | nil => intro n; simp [scanCount]
  | cons c t ih =>
    intro n
    cases n with
    | zero => rfl
    | succ k => rw [scanCount, List.drop_succ_cons, ih k]

theorem scan_of_findAux_none (src dst : CStr) (s : CStr) :
    ∀ i : Nat, findAux src s i = none →
      scanReplace src dst s 0 = s ∧ scanCount src s 0 = 0 := by
  induction s with
  | nil => intro i _; exact ⟨rfl, rfl⟩
  | cons c t ih =>
    intro i h
    rw [findAux] at h
    by_cases hp : src.isPrefixOf (c :: t) = true
    · rw [if_pos hp] at h; cases h
    · rw [if_neg hp] at h
      obtain ⟨h1, h2⟩ := ih (i + 1) h
      rw [scanReplace, scanCount, if_neg hp, if_neg hp, h1, h2]
      exact ⟨rfl, rfl⟩

theorem scan_of_findAux_some (src dst : CStr) (hsrc : src ≠ []) (s : CStr) :
    ∀ i pos : Nat, findAux src s i = some pos →
      ∃ pre post, s = pre ++ src ++ post ∧ pos = i + pre.length ∧
        scanReplace src dst s 0 = pre ++ dst ++ scanReplace src dst post 0 ∧
        scanCount src s 0 = scanCount src post 0 + 1 := by
  induction s with
  | nil =>
    intro i pos h
    rw [findAux, if_neg hsrc] at h
    cases h
  | cons c t ih =>
    intro i pos h
    rw [findAux] at h
    by_cases hp : src.isPrefixOf (c :: t) = true
    · rw [if_pos hp] at h
      obtain ⟨post, hpost⟩ := List.isPrefixOf_iff_prefix.1 hp
      have hlen : 0 < src.length := List.length_pos.2 hsrc
      have hdrop : t.drop (src.length - 1) = post := by
        have h1 : (c :: t).drop src.length = post := by
          rw [← hpost, List.drop_left]
        have h2 : src.length = (src.length - 1) + 1 := by omega
        rw [h2, List.drop_succ_cons] at h1
        exact h1
      refine ⟨[], post, ?_, ?_, ?_, ?_⟩
      · simpa using hpost.symm
      · simp only [List.length_nil, Nat.add_zero]
        exact (Option.some.inj h).symm
      · rw [scanReplace, if_pos hp, scanReplace_skip, hdrop]
        rfl
      · rw [scanCount, if_pos hp, scanCount_skip, hdrop]
    · rw [if_neg hp] at h
      obtain ⟨pre, post, h1, h2, h3, h4⟩ := ih (i + 1) pos h
      refine ⟨c :: pre, post, ?_, ?_, ?_, ?_⟩
      · rw [h1]; rfl
      · rw [h2, List.length_cons]; omega
      · rw [scanReplace, if_neg hp, h3]; rfl
      · rw [scanCount, if_neg hp, h4]

theorem find_after (done post src : CStr) :
    find (done ++ post) src done.length = findAux src post done.length := by
  unfold find
  rw [if_pos (by simp), List.drop_left]

/-- The loop on arguments that are objects of their own, entered after the text `done`
has been produced and with `rest` of the original still to scan, ends within
`rest.length + 1` iterations with the scan of `rest` appended to `done`, as long as
the count stays below `2 ^ 31`. -/
theorem ReplaceLoop_scan (src dst : CStr) (hsrc : src ≠ []) (fuel : Nat) :
    ∀ (done rest : CStr) (count : Nat), rest.length < fuel →
      count + scanCount src rest 0 < 2 ^ 31 →
      ReplaceLoop (.own src) (.own dst) src.length dst.length fuel (done ++ rest)
          (findAux src rest done.length) (count : Int)
        = some (done ++ scanReplace src dst rest 0,
            ((count + scanCount src rest 0 : Nat) : Int)) := by
  induction fuel with
  | zero => intro done rest count h; omega
  | succ f ih =>
    intro done rest count hlen hcount
    cases hfind : findAux src rest done.length with
    | none =>
      obtain ⟨h1, h2⟩ := scan_of_findAux_none src dst rest _ hfind
      rw [ReplaceLoop, h1, h2]
      rfl
    | some pos =>
      obtain ⟨pre, post, h1, h2, h3, h4⟩ := scan_of_findAux_some src dst hsrc rest _ pos hfind
      have hsl : 0 < src.length := List.length_pos.2 hsrc
      have hpost : post.length < f := by
        have := congrArg List.length h1
        simp only [List.length_append] at this
        omega
      have htarget : replace (done ++ rest) pos src.length dst = (done ++ pre ++ dst) ++ post := by
        unfold replace
        have e1 : done ++ rest = (done ++ pre) ++ (src ++ post) := by
          rw [h1]; simp
        have e2 : pos = (done ++ pre).length := by
          rw [h2, List.length_append]
        rw [e1, e2, List.take_left]
        have e3 : (done ++ pre).length + src.length = ((done ++ pre) ++ src).length := by
          simp only [List.length_append]
        have e4 : (done ++ pre) ++ (src ++ post) = ((done ++ pre) ++ src) ++ post := by
          simp
        rw [e3, e4, List.drop_left]
      have hpos : pos + dst.length = (done ++ pre ++ dst).length := by
        rw [h2]; simp only [List.length_append]
      have hc : (count : Int) < 2 ^ 31 - 1 := by
        rw [h4] at hcount
        omega
      have hnext : (count : Int) + 1 = ((count + 1 : Nat) : Int) := by
        push_cast; rfl
      rw [ReplaceLoop]
      simp only [StrRef.read, htarget, if_pos hc]
      rw [hpos, find_after, hnext,
        ih (done ++ pre ++ dst) post (count + 1) hpost (by rw [h4] at hcount; omega), h3, h4]
      simp only [List.append_assoc]
      congr 3
      omega

theorem scan_length_aux (src dst : CStr) (hsrc : src ≠ []) (s : CStr) :
    ∀ n : Nat,
      (scanReplace src dst s n).length + scanCount src s n * src.length + min n s.length
        = s.length + scanCount src s n * dst.length := by
  induction s with
  | nil => intro n; simp [scanReplace, scanCount]
  | cons c t ih =>
    intro n
    cases n with
    | succ k =>
      rw [scanReplace, scanCount, List.length_cons]
      have := ih k
      omega
    | zero =>
      rw [scanReplace, scanCount]
      by_cases hp : src.isPrefixOf (c :: t) = true
      · rw [if_pos hp, if_pos hp]
        have hle : src.length ≤ t.length + 1 := by
          have := (List.isPrefixOf_iff_prefix.1 hp).length_le
          simpa using this
        have hsl : 0 < src.length := List.length_pos.2 hsrc
        have := ih (src.length - 1)
        rw [List.length_append, List.length_cons, Nat.succ_mul, Nat.succ_mul]
        omega
      · rw [if_neg hp, if_neg hp, List.length_cons, List.length_cons]
        have := ih 0
        omega

theorem scan_count_aux (src : CStr) (hsrc : src ≠ []) (s : CStr) :
    ∀ n : Nat, scanCount src s n * src.length + min n s.length ≤ s.length := by
  induction s with
  | nil => intro n; simp [scanCount]
  | cons c t ih =>
    intro n
    cases n with
    | succ k =>
      rw [scanCount, List.length_cons]
      have := ih k
      omega
    | zero =>
      rw [scanCount]
      by_cases hp : src.isPrefixOf (c :: t) = true
      · rw [if_pos hp]
        have hle : src.length ≤ t.length + 1 := by
          have := (List.isPrefixOf_iff_prefix.1 hp).length_le
          simpa using this
        have hsl : 0 < src.length := List.length_pos.2 hsrc
        have := ih (src.length - 1)
        rw [List.length_cons, Nat.succ_mul]
        omega
      · rw [if_neg hp, List.length_cons]
        have := ih 0
        omega

/-- The aliased loop on a text of `n` letters `a`, with `src = "a"` and `dst` the
target itself, never ends: every iteration finds the next `a` two places on in a text
that has grown to `2 * n - 1` letters. -/
theorem ReplaceLoop_aliased (fuel : Nat) :
    ∀ (n pos : Nat) (count : Int), pos < n → (3 ≤ n ∨ (n = 2 ∧ pos = 0)) →
      ReplaceLoop (.own ['a']) .target 1 2 fuel (List.replicate n 'a') (some pos) count
        = none := by
  induction fuel with
  | zero => intro n pos count _ _; rfl
  | succ f ih =>
    intro n pos count hpos hn
    rw [ReplaceLoop]
    by_cases hc : count < 2 ^ 31 - 1
    · simp only [if_pos hc, StrRef.read]
      have htarget : replace (List.replicate n 'a') pos 1 (List.replicate n 'a')
          = List.replicate (2 * n - 1) 'a' := by
        unfold replace
        rw [List.take_replicate, List.drop_replicate, List.append_replicate_replicate,
          List.append_replicate_replicate]
        congr 1
        omega
      have hfind : find (List.replicate (2 * n - 1) 'a') ['a'] (pos + 2) = some (pos + 2) := by
        unfold find
        rw [if_pos (by rw [List.length_replicate]; omega), List.drop_replicate]
        obtain ⟨k, hk⟩ : ∃ k, 2 * n - 1 - (pos + 2) = k + 1 := ⟨2 * n - 1 - (pos + 2) - 1, by omega⟩
        rw [hk, List.replicate_succ, findAux]
        simp [List.isPrefixOf]
      rw [htarget, hfind]
      exact ih (2 * n - 1) (pos + 2) (count + 1) (by omega) (by omega)
    · simp only [if_neg hc]

/-- On arguments that are objects of their own, the loop returns no value when the
occurrences still to replace take the count to `2 ^ 31`: the fuel ends first, or
`count++` overflows. -/
theorem ReplaceLoop_overflow (src dst : CStr) (hsrc : src ≠ []) (fuel : Nat) :
    ∀ (done rest : CStr) (count : Nat), count < 2 ^ 31 →
      2 ^ 31 ≤ count + scanCount src rest 0 →
      ReplaceLoop (.own src) (.own dst) src.length dst.length fuel (done ++ rest)
          (findAux src rest done.length) (count : Int) = none := by
  induction fuel with
  | zero =>
    intro done rest count hc hover
    cases hfind : findAux src rest done.length with
    | none =>
      have := (scan_of_findAux_none src dst rest _ hfind).2
      omega
    | some pos => rfl
  | succ f ih =>
    intro done rest count hc hover
    cases hfind : findAux src rest done.length with
    | none =>
      have := (scan_of_findAux_none src dst rest _ hfind).2
      omega
    | some pos =>
      obtain ⟨pre, post, h1, h2, _, h4⟩ := scan_of_findAux_some src dst hsrc rest _ pos hfind
      have htarget : replace (done ++ rest) pos src.length dst = (done ++ pre ++ dst) ++ post := by
        unfold replace
        have e1 : done ++ rest = (done ++ pre) ++ (src ++ post) := by
          rw [h1]; simp
        have e2 : pos = (done ++ pre).length := by
          rw [h2, List.length_append]
        rw [e1, e2, List.take_left]
        have e3 : (done ++ pre).length + src.length = ((done ++ pre) ++ src).length := by
          simp only [List.length_append]
        have e4 : (done ++ pre) ++ (src ++ post) = ((done ++ pre) ++ src) ++ post := by
          simp
        rw [e3, e4, List.drop_left]
      have hpos : pos + dst.length = (done ++ pre ++ dst).length := by
        rw [h2]; simp only [List.length_append]
      rw [ReplaceLoop]
      by_cases hlt : (count : Int) < 2 ^ 31 - 1
      · have hnext : (count : Int) + 1 = ((count + 1 : Nat) : Int) := by
          push_cast; rfl
        simp only [StrRef.read, htarget, if_pos hlt]
        rw [hpos, find_after, hnext]
        exact ih (done ++ pre ++ dst) post (count + 1) (by omega) (by rw [h4] at hover; omega)
      · simp only [if_neg hlt]

theorem scanCount_replicate (n : Nat) :
    scanCount ['a'] (List.replicate n 'a') 0 = n := by
  induction n with
  | zero => rfl
  | succ k ih =>
    rw [List.replicate_succ, scanCount, if_pos (by simp [List.isPrefixOf])]
    show scanCount ['a'] (List.replicate k 'a') 0 + 1 = k + 1
    rw [ih]

/-- C9, as the claim states it, fails. When `dst` is the object passed as `target`: for
`target = "aa"`, `src = "a"` and `dst` the target itself, `Replace` returns for no
amount of fuel, while the scan the claim describes (every `a` of `aa` replaced by `aa`)
is `aaaa` with two occurrences. And when the occurrences do not fit the `int` count:
for a target of `2 ^ 31` letters `a`, `src = "a"` and `dst` empty, the number of
occurrences is `2 ^ 31` and no value is returned. -/
theorem Replace_aliased_never_returns :
    (∀ fuel : Nat, Replace fuel "aa".toList (.own "a".toList) .target = none) ∧
    scanReplace "a".toList "aa".toList "aa".toList 0 = "aaaa".toList ∧
    scanCount "a".toList "aa".toList 0 = 2 ∧
    (∀ fuel : Nat,
      Replace fuel (List.replicate (2 ^ 31) 'a') (.own "a".toList) (.own []) = none) ∧
    scanCount "a".toList (List.replicate (2 ^ 31) 'a') 0 = 2 ^ 31 := by
  refine ⟨fun fuel => ?_, by decide, by decide, fun fuel => ?_, scanCount_replicate _⟩
  · exact ReplaceLoop_aliased fuel 2 0 0 (by decide) (Or.inr ⟨rfl, rfl⟩)
  · have h := ReplaceLoop_overflow ['a'] [] (by decide) fuel [] (List.replicate (2 ^ 31) 'a') 0
      (by decide) (by rw [scanCount_replicate]; omega)
    have hf : find (List.replicate (2 ^ 31) 'a') ['a'] 0
        = findAux ['a'] (List.replicate (2 ^ 31) 'a') ([] : CStr).length :=
      find_after [] _ _
    show ReplaceLoop (.own ['a']) (.own []) (['a'] : CStr).length ([] : CStr).length fuel
      (List.replicate (2 ^ 31) 'a') (find (List.replicate (2 ^ 31) 'a') ['a'] 0) 0 = none
    rw [hf]
    exact h

/-- C9, amended: for every target, every non-empty `src` and every `dst`, both held in
objects other than `target`, and with fewer than `2 ^ 31` occurrences to replace (so
that the `int` count does not overflow), `Replace` ends within `target.length + 1`
iterations of its loop; it leaves in `target` the text that a single left-to-right scan
of the original yields when each occurrence of `src` met outside the occurrences
already matched is replaced by `dst` (the inserted text is not scanned); it returns the
number `k` of occurrences replaced; and the new length is the old length plus
`k * (|dst| - |src|)`. -/
theorem Replace_is_single_scan (fuel : Nat) (target src dst : CStr) (hsrc : src ≠ [])
    (hcount : scanCount src target 0 < 2 ^ 31) (hfuel : target.length < fuel) :
    Replace fuel target (.own src) (.own dst)
      = some (scanReplace src dst target 0, ((scanCount src target 0 : Nat) : Int)) ∧
    ((scanReplace src dst target 0).length : Int)
      = (target.length : Int)
        + ((scanCount src target 0 : Nat) : Int) * ((dst.length : Int) - (src.length : Int)) ∧
    scanCount src target 0 * src.length ≤ target.length := by
  have hlen := scan_length_aux src dst hsrc target 0
  simp only [Nat.zero_min, Nat.add_zero] at hlen
  refine ⟨?_, ?_, ?_⟩
  · unfold Replace
    have h := ReplaceLoop_scan src dst hsrc fuel [] target 0 hfuel (by omega)
    have hf : find target src 0 = findAux src target 0 := find_after [] target src
    simp only [StrRef.read]
    rw [hf]
    simpa using h
  · have hz : ((scanReplace src dst target 0).length : Int)
        + ((scanCount src target 0 : Nat) : Int) * (src.length : Int)
        = (target.length : Int) + ((scanCount src target 0 : Nat) : Int) * (dst.length : Int) := by
      exact_mod_cast hlen
    linarith
  · have h2 := scan_count_aux src hsrc target 0
    simpa using h2

end SafeString

namespace SafeString

/-- C9, amended, at target `aXbXXc`, `src = X`, `dst = XX` (a `dst` that contains `src`):
three occurrences are replaced and the inserted text is not scanned again. -/
theorem Replace_is_single_scan_witness :
    "X".toList ≠ [] ∧ scanCount "X".toList "aXbXXc".toList 0 < 2 ^ 31 ∧
    "aXbXXc".toList.length < 7 ∧
    Replace 7 "aXbXXc".toList (.own "X".toList) (.own "XX".toList)
      = some ("aXXbXXXXc".toList, 3) :=
  ⟨by decide, by decide, by decide,
   (Replace_is_single_scan 7 "aXbXXc".toList "X".toList "XX".toList (by decide)
      (by decide) (by decide)).1⟩

end SafeString

namespace SafeString

open XEngine (CStr)

/-! ## Split -/

end SafeString

namespace SafeString

open XEngine (CStr)

end SafeString
